import Mathlib

/-!
Verification of the byte-exact mail rewriting core and SMTP reply
classification of the sendeml program (src/sendeml.ts, with the
near-duplicate revision providing makeTimeZoneOffset / padZero2).

Bytes are modelled as natural numbers, byte buffers as lists of
naturals, and strings as lists of characters.  The two impure line
generators (makeNowDateLine, makeRandomMessageIdLine) depend on the
clock and on randomness, so the generated replacement lines are passed
to the embedded functions as explicit parameters; theorems assume only
the shape every generated line actually has (a header-name prefix and
a single trailing CRLF).
-/

namespace SendEML

/-- Byte value of carriage return. -/
def CR : Nat := 13

/-- Byte value of line feed. -/
def LF : Nat := 10

/-- Byte value of a space. -/
def SPACE : Nat := 32

/-- Byte value of a horizontal tab. -/
def HTAB : Nat := 9

/-- UTF-8 bytes of a string of ASCII characters; used to build the
constant byte buffers of the source. -/
def strBytes (s : String) : List Nat := s.data.map Char.toNat

/-- DATE_BYTES: the bytes of the literal field name, as in the source. -/
def DATE_BYTES : List Nat := [68, 97, 116, 101, 58]

/-- MESSAGE_ID_BYTES: the bytes of the literal field name. -/
def MESSAGE_ID_BYTES : List Nat := [77, 101, 115, 115, 97, 103, 101, 45, 73, 68, 58]

/-- isNotUpdate from the source: both update flags are off. -/
def isNotUpdate (updateDate updateMessageId : Bool) : Bool :=
  !updateDate && !updateMessageId

/-- JavaScript Array.prototype.findIndex, with the not-found -1 result
modelled as none. -/
def findIndexOpt (p : α → Bool) : List α → Option Nat
  | [] => none
  | x :: xs => if p x then some 0 else (findIndexOpt p xs).map (· + 1)

/-- Helper for findAllLfIndices: the loop of repeated indexOf calls
yields every LF index in ascending order; k is the absolute offset of
the head of the remaining buffer. -/
def findLfIndicesFrom : List Nat → Nat → List Nat
  | [], _ => []
  | b :: bs, k =>
    if b = LF then k :: findLfIndicesFrom bs (k + 1) else findLfIndicesFrom bs (k + 1)

/-- findAllLfIndices from the source. -/
def findAllLfIndices (buf : List Nat) : List Nat := findLfIndicesFrom buf 0

/-- JavaScript TypedArray.prototype.slice(start, stop) on byte buffers. -/
def sliceBytes (bytes : List Nat) (start stop : Nat) : List Nat :=
  (bytes.drop start).take (stop - start)

/-- The map with the mutable offset inside getRawLines: each boundary
index i produces the slice from the running offset to i+1. -/
def linesFromBoundaries (bytes : List Nat) : Nat → List Nat → List (List Nat)
  | _, [] => []
  | offset, i :: rest =>
    sliceBytes bytes offset (i + 1) :: linesFromBoundaries bytes (i + 1) rest

/-- getRawLines from the source: all LF indices plus the synthetic
trailing boundary at length-1, turned into consecutive slices. -/
def getRawLines (bytes : List Nat) : List (List Nat) :=
  linesFromBoundaries bytes 0 (findAllLfIndices bytes ++ [bytes.length - 1])

/-- concatBytes from the source: concatenation of all the buffers. -/
def concatBytes (bytesArray : List (List Nat)) : List Nat :=
  bytesArray.flatten

/-- matchHeader from the source: the line is at least as long as the
field name and agrees with it positionally.  (The source throws on an
empty field name; both call sites pass a non-empty literal.) -/
def matchHeader (line header : List Nat) : Bool :=
  header.isPrefixOf line

/-- isDateLine from the source. -/
def isDateLine (line : List Nat) : Bool := matchHeader line DATE_BYTES

/-- isMessageIdLine from the source. -/
def isMessageIdLine (line : List Nat) : Bool := matchHeader line MESSAGE_ID_BYTES

/-- isWsp from the source. -/
def isWsp (b : Nat) : Bool := b == SPACE || b == HTAB

/-- isFoldedLine from the source: first byte (0 when the line is
empty) is space or tab. -/
def isFoldedLine (bytes : List Nat) : Bool := isWsp (bytes.headD 0)

/-- dropFoldedLine from the source: findIndex of the first non-folded
line; -1 (none) or 0 return the list unchanged, otherwise drop up to
that index. -/
def dropFoldedLine (lines : List (List Nat)) : List (List Nat) :=
  match findIndexOpt (fun l => ! isFoldedLine l) lines with
  | none => lines
  | some idx => if idx = 0 then lines else lines.drop idx

/-- replaceLine from the source, with the generated replacement line
passed as a value: replace the first matching line and drop the folded
continuation lines that followed it. -/
def replaceLine (lines : List (List Nat)) (matchLine : List Nat → Bool)
    (newLine : List Nat) : List (List Nat) :=
  match findIndexOpt matchLine lines with
  | none => lines
  | some idx => lines.take idx ++ [newLine] ++ dropFoldedLine (lines.drop (idx + 1))

/-- replaceDateLine from the source, the fresh Date line being the
output of makeNowDateLine. -/
def replaceDateLine (lines : List (List Nat)) (dateLine : List Nat) : List (List Nat) :=
  replaceLine lines isDateLine dateLine

/-- replaceMessageIdLine from the source, the fresh Message-ID line
being the output of makeRandomMessageIdLine. -/
def replaceMessageIdLine (lines : List (List Nat)) (midLine : List Nat) : List (List Nat) :=
  replaceLine lines isMessageIdLine midLine

/-- replaceHeader from the source: decompose into raw lines, apply the
selected rewrites, recombine. -/
def replaceHeader (header : List Nat) (updateDate updateMessageId : Bool)
    (dateLine midLine : List Nat) : List Nat :=
  let lines := getRawLines header
  concatBytes
    (if updateDate && updateMessageId then
       replaceMessageIdLine (replaceDateLine lines dateLine) midLine
     else if updateDate && !updateMessageId then replaceDateLine lines dateLine
     else if !updateDate && updateMessageId then replaceMessageIdLine lines midLine
     else lines)

/-- EMPTY_LINE from the source: the CRLFCRLF boundary. -/
def EMPTY_LINE : List Nat := [CR, LF, CR, LF]

/-- combineMail from the source. -/
def combineMail (header body : List Nat) : List Nat :=
  concatBytes [header, EMPTY_LINE, body]

/-- findEmptyLine from the source: scan for the first CR that starts a
CR,LF,CR,LF run fully inside the buffer; -1 (none) when there is no
such run.  Scanning every position is equivalent to the source's scan
of CR positions, since a position that does not hold CR fails the
first comparison. -/
def findEmptyLine : List Nat → Option Nat
  | a :: b :: c :: d :: rest =>
    if a = CR ∧ b = LF ∧ c = CR ∧ d = LF then some 0
    else (findEmptyLine (b :: c :: d :: rest)).map (· + 1)
  | _ => none

/-- splitMail from the source: header is everything before the
boundary, body everything after its four bytes. -/
def splitMail (bytes : List Nat) : Option (List Nat × List Nat) :=
  match findEmptyLine bytes with
  | none => none
  | some idx => some (bytes.take idx, bytes.drop (idx + EMPTY_LINE.length))

/-- replaceMail from the source, with the two generated lines passed
as values; none models the not-ok result. -/
def replaceMail (bytes : List Nat) (updateDate updateMessageId : Bool)
    (dateLine midLine : List Nat) : Option (List Nat) :=
  if isNotUpdate updateDate updateMessageId then some bytes
  else
    match splitMail bytes with
    | none => none
    | some (header, body) =>
      some (combineMail (replaceHeader header updateDate updateMessageId dateLine midLine) body)

/-- The CRLFCRLF boundary pattern occurs at offset j of a buffer. -/
def crlfAt (bytes : List Nat) (j : Nat) : Bool :=
  EMPTY_LINE.isPrefixOf (bytes.drop j)

/-- The decimal digit character for a value below ten. -/
def digitChar (n : Nat) : Char := Char.ofNat (48 + n)

/-- padZero2 from the revision with makeTimeZoneOffset: two-digit
zero-padded decimal; values outside 0..99 throw (none).  The argument
is a natural number because both call sites pass Math.abs results. -/
def padZero2 (n : Nat) : Option (List Char) :=
  if n > 99 then none else some [digitChar (n / 10), digitChar (n % 10)]

/-- makeTimeZoneOffset from the revision that defines it: min is the
value of Date.prototype.getTimezoneOffset, minutes of UTC minus local
time; outside -840..720 it throws (none). -/
def makeTimeZoneOffset (min : Int) : Option (List Char) :=
  if min < -840 ∨ min > 720 then none
  else
    match padZero2 (min.natAbs / 60), padZero2 (min.natAbs % 60) with
    | some first, some last => some ((if min ≤ 0 then '+' else '-') :: (first ++ last))
    | _, _ => none

/-- A JavaScript regular-expression line terminator, which the dot
pattern never matches. -/
def isLineTerminator (c : Char) : Bool :=
  c = '\n' || c = '\r' || c.toNat = 8232 || c.toNat = 8233

/-- A character matched by the digit pattern of the regex. -/
def isDigitChar (c : Char) : Bool := '0' ≤ c && c ≤ '9'

/-- isLastReply from the source: the test of the anchored regex of
three digits, one space and a non-empty dot-plus, which demands a
fifth character that is not a line terminator. -/
def isLastReply (line : List Char) : Bool :=
  match line with
  | c0 :: c1 :: c2 :: c3 :: c4 :: _ =>
    isDigitChar c0 && isDigitChar c1 && isDigitChar c2 && (c3 = ' ') &&
      ! isLineTerminator c4
  | _ => false

/-- isPositiveReply from the source: the first character (the empty
string when the line is empty) is 2 or 3. -/
def isPositiveReply (line : List Char) : Bool :=
  match line with
  | [] => false
  | c :: _ => c = '2' || c = '3'

/-- A buffer holding one physical line with its LF terminator: some
content free of LF followed by the LF byte. -/
def NLTerm (p : List Nat) : Prop := ∃ u, p = u ++ [LF] ∧ LF ∉ u

/-- The physical lines of a header field: the line where the field
starts together with its folded continuation lines.  This formalises
the spec's notion of a field for the frame claims; none when no line
matches. -/
def getFieldLines (P : List Nat → Bool) : List (List Nat) → Option (List (List Nat))
  | [] => none
  | l :: rest =>
    if P l then some (l :: rest.takeWhile isFoldedLine) else getFieldLines P rest

/-- The header lines with the first P-field deleted: the line where
the field starts and its folded continuation lines are removed, every
other line kept in order.  This is the complement of getFieldLines and
states the frame half of the claims: a rewrite of one field leaves
this complement byte-identical. -/
def eraseFieldLines (P : List Nat → Bool) : List (List Nat) → List (List Nat)
  | [] => []
  | l :: rest =>
    if P l then rest.dropWhile isFoldedLine else l :: eraseFieldLines P rest

/-- Shape of a line decomposition: every line but the last carries its
LF terminator, and the last is either terminated or LF-free. -/
inductive ShapeL : List (List Nat) → Prop where
  | single (r : List Nat) : (LF ∉ r ∨ NLTerm r) → ShapeL [r]
  | cons (p : List Nat) (ps : List (List Nat)) : NLTerm p → ShapeL ps → ShapeL (p :: ps)

/-! ### Line decomposition: structural lemmas -/

theorem findLfIndicesFrom_eq_nil (bs : List Nat) (h : LF ∉ bs) (k : Nat) :
    findLfIndicesFrom bs k = [] := by
  induction bs generalizing k with
  | nil => rfl
  | cons b bs ih =>
    simp only [List.mem_cons, not_or] at h
    have hb : ¬ b = LF := fun e => h.1 e.symm
    simp only [findLfIndicesFrom, if_neg hb]
    exact ih h.2 (k + 1)

theorem findLfIndicesFrom_shift (bs : List Nat) (k j : Nat) :
    findLfIndicesFrom bs (k + j) = (findLfIndicesFrom bs k).map (· + j) := by
  induction bs generalizing k with
  | nil => simp [findLfIndicesFrom]
  | cons b bs ih =>
    have e1 : k + j + 1 = (k + 1) + j := by omega
    by_cases hb : b = LF
    · simp only [findLfIndicesFrom, if_pos hb, e1, ih (k + 1), List.map_cons]
    · simp only [findLfIndicesFrom, if_neg hb, e1, ih (k + 1)]

theorem findLfIndicesFrom_append (q r : List Nat) (hq : LF ∉ q) (k : Nat) :
    findLfIndicesFrom (q ++ LF :: r) k =
      (k + q.length) :: findLfIndicesFrom r (k + q.length + 1) := by
  induction q generalizing k with
  | nil => simp [findLfIndicesFrom]
  | cons a q ih =>
    simp only [List.mem_cons, not_or] at hq
    have ha : ¬ a = LF := fun e => hq.1 e.symm
    simp only [List.cons_append, findLfIndicesFrom, if_neg ha, List.append_eq]
    rw [ih hq.2 (k + 1)]
    have e1 : k + 1 + q.length = k + (a :: q).length := by simp [List.length_cons]; omega
    rw [e1]

theorem linesFromBoundaries_shift (bytes ixs : List Nat) (s : Nat) :
    ∀ off, linesFromBoundaries bytes (off + s) (ixs.map (· + s)) =
      linesFromBoundaries (bytes.drop s) off ixs := by
  induction ixs with
  | nil => intro off; simp [linesFromBoundaries]
  | cons i rest ih =>
    intro off
    simp only [List.map_cons, linesFromBoundaries]
    have e0 : i + s + 1 = (i + 1) + s := by omega
    rw [e0]
    congr 1
    · simp only [sliceBytes, List.drop_drop]
      have e1 : i + 1 + s - (off + s) = i + 1 - off := by omega
      have e2 : s + off = off + s := by omega
      rw [e1, e2]
    · exact ih (i + 1)

theorem getRawLines_of_not_mem (b : List Nat) (h : LF ∉ b) : getRawLines b = [b] := by
  rw [getRawLines, findAllLfIndices, findLfIndicesFrom_eq_nil b h 0]
  simp only [List.nil_append, linesFromBoundaries, sliceBytes, List.drop_zero, Nat.sub_zero]
  rw [List.take_of_length_le (by omega)]

theorem getRawLines_nil : getRawLines [] = [[]] := by
  rw [getRawLines_of_not_mem [] (by simp)]

theorem getRawLines_split (q r : List Nat) (hq : LF ∉ q) :
    getRawLines (q ++ LF :: r) = (q ++ [LF]) :: getRawLines r := by
  have hlen : (q ++ LF :: r).length = q.length + 1 + r.length := by
    simp [List.length_append]; omega
  have hpiece : sliceBytes (q ++ LF :: r) 0 (q.length + 1) = q ++ [LF] := by
    simp only [sliceBytes, List.drop_zero, Nat.sub_zero]
    have : q.length + 1 = q.length + 1 := rfl
    rw [show q.length + 1 = q.length + 1 from rfl, List.take_append]
    simp
  cases r with
  | nil =>
    rw [getRawLines, findAllLfIndices, findLfIndicesFrom_append q [] hq 0, hlen]
    simp only [findLfIndicesFrom, List.length_nil, Nat.zero_add, Nat.add_zero]
    have e : q.length + 1 - 1 = q.length := by omega
    rw [e]
    simp only [List.cons_append, List.nil_append, linesFromBoundaries]
    rw [hpiece]
    have e2 : sliceBytes (q ++ [LF]) (q.length + 1) (q.length + 1) = [] := by
      simp [sliceBytes]
    rw [e2, getRawLines_nil]
  | cons x xs =>
    rw [getRawLines, findAllLfIndices, findLfIndicesFrom_append q (x :: xs) hq 0, hlen]
    simp only [Nat.zero_add, List.cons_append, linesFromBoundaries]
    rw [hpiece]
    congr 1
    have emap1 : findLfIndicesFrom (x :: xs) (q.length + 1) =
        (findLfIndicesFrom (x :: xs) 0).map (· + (q.length + 1)) := by
      have := findLfIndicesFrom_shift (x :: xs) 0 (q.length + 1)
      simpa using this
    have emap2 : q.length + 1 + (x :: xs).length - 1 =
        ((x :: xs).length - 1) + (q.length + 1) := by
      simp [List.length_cons]; omega
    rw [emap2, emap1]
    simp only [List.append_eq]
    have : (findLfIndicesFrom (x :: xs) 0).map (· + (q.length + 1)) ++
        [(x :: xs).length - 1 + (q.length + 1)] =
        ((findLfIndicesFrom (x :: xs) 0) ++ [(x :: xs).length - 1]).map (· + (q.length + 1)) := by
      simp
    rw [this]
    have hdrop : (q ++ LF :: x :: xs).drop (q.length + 1) = x :: xs := by
      rw [List.drop_append]
      simp
    have := linesFromBoundaries_shift (q ++ LF :: x :: xs)
      ((findLfIndicesFrom (x :: xs) 0) ++ [(x :: xs).length - 1]) (q.length + 1) 0
    rw [Nat.zero_add] at this
    rw [this, hdrop, getRawLines, findAllLfIndices]

theorem lf_decomp (b : List Nat) (hb : LF ∈ b) : ∃ q r, b = q ++ LF :: r ∧ LF ∉ q := by
  induction b with
  | nil => cases hb
  | cons x xs ih =>
    by_cases hx : x = LF
    · exact ⟨[], xs, by simp [hx], by simp⟩
    · have hmem : LF ∈ xs := by
        rcases List.mem_cons.mp hb with h | h
        · exact absurd h.symm hx
        · exact h
      obtain ⟨q, r, e, hqq⟩ := ih hmem
      refine ⟨x :: q, r, by rw [e]; rfl, ?_⟩
      simp only [List.mem_cons, not_or]
      exact ⟨fun h => hx h.symm, hqq⟩

theorem concat_getRawLines_aux : ∀ n (b : List Nat), b.length ≤ n →
    concatBytes (getRawLines b) = b := by
  intro n
  induction n with
  | zero =>
    intro b hb
    have : b = [] := List.eq_nil_of_length_eq_zero (Nat.le_zero.mp hb)
    subst this
    rfl
  | succ n ih =>
    intro b hb
    by_cases hLF : LF ∈ b
    · obtain ⟨q, r, e, hq⟩ := lf_decomp b hLF
      subst e
      rw [getRawLines_split q r hq]
      have hr : r.length ≤ n := by
        simp only [List.length_append, List.length_cons] at hb
        omega
      simp only [concatBytes, List.flatten_cons]
      have := ih r hr
      simp only [concatBytes] at this
      rw [this]
      simp
    · rw [getRawLines_of_not_mem b hLF]
      simp [concatBytes]

/-- C4: for every byte buffer, including the empty buffer and buffers
ending in LF, concatenating in order all the lines produced by
getRawLines reproduces the original buffer exactly. -/
theorem concat_getRawLines_eq_self (bytes : List Nat) :
    concatBytes (getRawLines bytes) = bytes :=
  concat_getRawLines_aux bytes.length bytes le_rfl

/-! ### dropFoldedLine and replaceLine: step lemmas -/

theorem dropFoldedLine_nil : dropFoldedLine [] = [] := rfl

theorem dropFoldedLine_cons_not_folded (l : List Nat) (rest : List (List Nat))
    (h : isFoldedLine l = false) : dropFoldedLine (l :: rest) = l :: rest := by
  simp [dropFoldedLine, findIndexOpt, h]

theorem dropFoldedLine_cons_all_folded (l : List Nat) (rest : List (List Nat))
    (hl : isFoldedLine l = true)
    (hr : findIndexOpt (fun x => ! isFoldedLine x) rest = none) :
    dropFoldedLine (l :: rest) = l :: rest := by
  simp [dropFoldedLine, findIndexOpt, hl, hr]

theorem dropFoldedLine_cons_folded (l : List Nat) (rest : List (List Nat))
    (hl : isFoldedLine l = true) (i : Nat)
    (hr : findIndexOpt (fun x => ! isFoldedLine x) rest = some i) :
    dropFoldedLine (l :: rest) = dropFoldedLine rest := by
  simp only [dropFoldedLine, findIndexOpt, hl, hr]
  cases i with
  | zero => simp
  | succ n => simp [List.drop_succ_cons]

theorem dropFoldedLine_singleton (r : List Nat) : dropFoldedLine [r] = [r] := by
  by_cases h : isFoldedLine r
  · exact dropFoldedLine_cons_all_folded r [] h rfl
  · exact dropFoldedLine_cons_not_folded r [] (by simpa using h)

theorem replaceLine_nil (M : List Nat → Bool) (new : List Nat) :
    replaceLine [] M new = [] := rfl

theorem replaceLine_cons (l : List Nat) (rest : List (List Nat))
    (M : List Nat → Bool) (new : List Nat) :
    replaceLine (l :: rest) M new =
      if M l then new :: dropFoldedLine rest else l :: replaceLine rest M new := by
  by_cases hM : M l
  · simp [replaceLine, findIndexOpt, hM]
  · simp only [replaceLine, findIndexOpt, hM, if_false, Bool.false_eq_true]
    cases hr : findIndexOpt M rest with
    | none => simp
    | some i =>
      simp only [Option.map_some, List.take_succ_cons, List.drop_succ_cons]
      rfl

/-! ### Counting lines through the rewrites -/

theorem countP_dropFoldedLine (P : List Nat → Bool) (xs : List (List Nat))
    (hPf : ∀ l, isFoldedLine l = true → P l = false) :
    List.countP P (dropFoldedLine xs) = List.countP P xs := by
  induction xs with
  | nil => rfl
  | cons x rest ih =>
    by_cases hx : isFoldedLine x
    · cases hr : findIndexOpt (fun l => ! isFoldedLine l) rest with
      | none => rw [dropFoldedLine_cons_all_folded x rest hx hr]
      | some i =>
        rw [dropFoldedLine_cons_folded x rest hx i hr, ih, List.countP_cons,
          hPf x hx]
        simp
    · rw [dropFoldedLine_cons_not_folded x rest (by simpa using hx)]

theorem countP_replaceLine_self (P : List Nat → Bool) (new : List Nat)
    (xs : List (List Nat))
    (hPf : ∀ l, isFoldedLine l = true → P l = false) (hnew : P new = true) :
    List.countP P (replaceLine xs P new) = List.countP P xs := by
  induction xs with
  | nil => rfl
  | cons l rest ih =>
    rw [replaceLine_cons]
    by_cases hl : P l
    · rw [if_pos hl, List.countP_cons, List.countP_cons, hnew, hl,
        countP_dropFoldedLine P rest hPf]
    · rw [if_neg hl, List.countP_cons, List.countP_cons, ih]

theorem countP_replaceLine_other (M Q : List Nat → Bool) (new : List Nat)
    (xs : List (List Nat))
    (hQf : ∀ l, isFoldedLine l = true → Q l = false)
    (hMQ : ∀ l, M l = true → Q l = false) (hnew : Q new = false) :
    List.countP Q (replaceLine xs M new) = List.countP Q xs := by
  induction xs with
  | nil => rfl
  | cons l rest ih =>
    rw [replaceLine_cons]
    by_cases hl : M l
    · rw [if_pos hl, List.countP_cons, List.countP_cons, hnew, hMQ l hl,
        countP_dropFoldedLine Q rest hQf]
    · rw [if_neg hl, List.countP_cons, List.countP_cons, ih]

/-! ### Shape of line decompositions and re-splitting the rebuilt buffer -/

theorem shapeL_getRawLines_aux : ∀ n (b : List Nat), b.length ≤ n →
    ShapeL (getRawLines b) := by
  intro n
  induction n with
  | zero =>
    intro b hb
    have : b = [] := List.eq_nil_of_length_eq_zero (Nat.le_zero.mp hb)
    subst this
    rw [getRawLines_nil]
    exact ShapeL.single [] (Or.inl (by simp))
  | succ n ih =>
    intro b hb
    by_cases hLF : LF ∈ b
    · obtain ⟨q, r, e, hq⟩ := lf_decomp b hLF
      subst e
      rw [getRawLines_split q r hq]
      have hr : r.length ≤ n := by
        simp only [List.length_append, List.length_cons] at hb
        omega
      exact ShapeL.cons (q ++ [LF]) (getRawLines r) ⟨q, rfl, hq⟩ (ih r hr)
    · rw [getRawLines_of_not_mem b hLF]
      exact ShapeL.single b (Or.inl hLF)

theorem shapeL_getRawLines (b : List Nat) : ShapeL (getRawLines b) :=
  shapeL_getRawLines_aux b.length b le_rfl

theorem shapeL_dropFoldedLine (xs : List (List Nat)) (hs : ShapeL xs) :
    ShapeL (dropFoldedLine xs) := by
  induction hs with
  | single r hr =>
    rw [dropFoldedLine_singleton]
    exact ShapeL.single r hr
  | cons p ps hp hps ih =>
    by_cases hf : isFoldedLine p
    · cases hr : findIndexOpt (fun x => ! isFoldedLine x) ps with
      | none =>
        rw [dropFoldedLine_cons_all_folded p ps hf hr]
        exact ShapeL.cons p ps hp hps
      | some i =>
        rw [dropFoldedLine_cons_folded p ps hf i hr]
        exact ih
    · rw [dropFoldedLine_cons_not_folded p ps (by simpa using hf)]
      exact ShapeL.cons p ps hp hps

theorem shapeL_replaceLine (xs : List (List Nat)) (M : List Nat → Bool)
    (new : List Nat) (hs : ShapeL xs) (hnew : NLTerm new) :
    ShapeL (replaceLine xs M new) := by
  induction hs with
  | single r hr =>
    rw [replaceLine_cons]
    by_cases hM : M r
    · rw [if_pos hM, dropFoldedLine_nil]
      exact ShapeL.single new (Or.inr hnew)
    · rw [if_neg hM, replaceLine_nil]
      exact ShapeL.single r hr
  | cons p ps hp hps ih =>
    rw [replaceLine_cons]
    by_cases hM : M p
    · rw [if_pos hM]
      exact ShapeL.cons new (dropFoldedLine ps) hnew (shapeL_dropFoldedLine ps hps)
    · rw [if_neg hM]
      exact ShapeL.cons p (replaceLine ps M new) hp ih

theorem getRawLines_concat_of_shape (xs : List (List Nat)) (hs : ShapeL xs) :
    getRawLines (concatBytes xs) = xs ∨
      getRawLines (concatBytes xs) = xs ++ [[]] := by
  induction hs with
  | single r hr =>
    rcases hr with hfree | ⟨u, he, hu⟩
    · left
      have : concatBytes [r] = r := by simp [concatBytes]
      rw [this, getRawLines_of_not_mem r hfree]
    · right
      subst he
      have : concatBytes [u ++ [LF]] = u ++ LF :: [] := by simp [concatBytes]
      rw [this, getRawLines_split u [] hu, getRawLines_nil]
      rfl
  | cons p ps hp hps ih =>
    obtain ⟨u, he, hu⟩ := hp
    subst he
    have hc : concatBytes ((u ++ [LF]) :: ps) = u ++ LF :: concatBytes ps := by
      simp [concatBytes]
    rw [hc, getRawLines_split u (concatBytes ps) hu]
    rcases ih with h | h
    · left; rw [h]
    · right; rw [h]; rfl

theorem countP_getRawLines_concat (P : List Nat → Bool) (xs : List (List Nat))
    (hs : ShapeL xs) (hP : P [] = false) :
    List.countP P (getRawLines (concatBytes xs)) = List.countP P xs := by
  rcases getRawLines_concat_of_shape xs hs with h | h
  · rw [h]
  · rw [h, List.countP_append, List.countP_cons, hP]
    simp

/-! ### Field extraction lemmas -/

theorem takeWhile_append_last_false (Q : List Nat → Bool) (u : List (List Nat))
    (v : List Nat) (hv : Q v = false) :
    (u ++ [v]).takeWhile Q = u.takeWhile Q := by
  induction u with
  | nil => simp [List.takeWhile_cons, hv]
  | cons x rest ih =>
    by_cases hx : Q x
    · simp [List.takeWhile_cons, hx, ih]
    · simp [List.takeWhile_cons, hx]

theorem getFieldLines_append_nil (G : List Nat → Bool) (xs : List (List Nat))
    (hG : G [] = false) :
    getFieldLines G (xs ++ [[]]) = getFieldLines G xs := by
  induction xs with
  | nil => simp [getFieldLines, hG]
  | cons l rest ih =>
    by_cases hl : G l
    · simp only [List.cons_append, getFieldLines, if_pos hl, List.append_eq]
      rw [takeWhile_append_last_false isFoldedLine rest [] (by decide)]
    · simp only [List.cons_append, getFieldLines, if_neg hl]
      exact ih

theorem getFieldLines_getRawLines_concat (G : List Nat → Bool)
    (xs : List (List Nat)) (hs : ShapeL xs) (hG : G [] = false) :
    getFieldLines G (getRawLines (concatBytes xs)) = getFieldLines G xs := by
  rcases getRawLines_concat_of_shape xs hs with h | h
  · rw [h]
  · rw [h, getFieldLines_append_nil G xs hG]

theorem getFieldLines_dropFoldedLine (G : List Nat → Bool) (xs : List (List Nat))
    (hGf : ∀ l, isFoldedLine l = true → G l = false) :
    getFieldLines G (dropFoldedLine xs) = getFieldLines G xs := by
  induction xs with
  | nil => rfl
  | cons x rest ih =>
    by_cases hx : isFoldedLine x
    · cases hr : findIndexOpt (fun l => ! isFoldedLine l) rest with
      | none => rw [dropFoldedLine_cons_all_folded x rest hx hr]
      | some i =>
        rw [dropFoldedLine_cons_folded x rest hx i hr, ih]
        simp only [getFieldLines, hGf x hx]
        simp
    · rw [dropFoldedLine_cons_not_folded x rest (by simpa using hx)]

theorem takeWhile_folded_replaceLine (M : List Nat → Bool) (new : List Nat)
    (xs : List (List Nat))
    (hMf : ∀ l, M l = true → isFoldedLine l = false)
    (hfnew : isFoldedLine new = false) :
    (replaceLine xs M new).takeWhile isFoldedLine = xs.takeWhile isFoldedLine := by
  induction xs with
  | nil => rfl
  | cons l rest ih =>
    rw [replaceLine_cons]
    by_cases hM : M l
    · rw [if_pos hM]
      simp [List.takeWhile_cons, hfnew, hMf l hM]
    · rw [if_neg hM]
      by_cases hf : isFoldedLine l
      · simp [List.takeWhile_cons, hf, ih]
      · simp [List.takeWhile_cons, hf]

theorem getFieldLines_replaceLine (M G : List Nat → Bool) (new : List Nat)
    (xs : List (List Nat))
    (hMG : ∀ l, M l = true → G l = false)
    (hMf : ∀ l, M l = true → isFoldedLine l = false)
    (hGf : ∀ l, isFoldedLine l = true → G l = false)
    (hGnew : G new = false) (hfnew : isFoldedLine new = false) :
    getFieldLines G (replaceLine xs M new) = getFieldLines G xs := by
  induction xs with
  | nil => rfl
  | cons l rest ih =>
    rw [replaceLine_cons]
    by_cases hM : M l
    · rw [if_pos hM]
      simp only [getFieldLines, hGnew, hMG l hM]
      simp only [Bool.false_eq_true, if_false]
      exact getFieldLines_dropFoldedLine G rest hGf
    · rw [if_neg hM]
      by_cases hG : G l
      · simp only [getFieldLines, if_pos hG]
        rw [takeWhile_folded_replaceLine M new rest hMf hfnew]
      · simp only [getFieldLines, if_neg hG]
        exact ih

/-! ### First bytes of matched header lines -/

theorem isDateLine_head (l : List Nat) (h : isDateLine l = true) : l.headD 0 = 68 := by
  have hp : DATE_BYTES <+: l := List.isPrefixOf_iff_prefix.mp h
  obtain ⟨t, ht⟩ := hp
  rw [← ht]
  rfl

theorem isMessageIdLine_head (l : List Nat) (h : isMessageIdLine l = true) :
    l.headD 0 = 77 := by
  have hp : MESSAGE_ID_BYTES <+: l := List.isPrefixOf_iff_prefix.mp h
  obtain ⟨t, ht⟩ := hp
  rw [← ht]
  rfl

theorem date_not_folded (l : List Nat) (h : isDateLine l = true) :
    isFoldedLine l = false := by
  have h68 := isDateLine_head l h
  simp only [isFoldedLine, isWsp]
  rw [h68]
  decide

theorem msg_not_folded (l : List Nat) (h : isMessageIdLine l = true) :
    isFoldedLine l = false := by
  have h77 := isMessageIdLine_head l h
  simp only [isFoldedLine, isWsp]
  rw [h77]
  decide

theorem folded_not_date (l : List Nat) (h : isFoldedLine l = true) :
    isDateLine l = false := by
  cases hd : isDateLine l with
  | false => rfl
  | true => rw [date_not_folded l hd] at h; cases h

theorem folded_not_msg (l : List Nat) (h : isFoldedLine l = true) :
    isMessageIdLine l = false := by
  cases hm : isMessageIdLine l with
  | false => rfl
  | true => rw [msg_not_folded l hm] at h; cases h

theorem date_not_msg (l : List Nat) (h : isDateLine l = true) :
    isMessageIdLine l = false := by
  cases hm : isMessageIdLine l with
  | false => rfl
  | true =>
    have h68 := isDateLine_head l h
    have h77 := isMessageIdLine_head l hm
    rw [h68] at h77
    cases h77

theorem msg_not_date (l : List Nat) (h : isMessageIdLine l = true) :
    isDateLine l = false := by
  cases hd : isDateLine l with
  | false => rfl
  | true => rw [date_not_msg l hd] at h; cases h

/-! ### C1: uniqueness of the rewritten Date and Message-ID lines -/

/-- C1 counterexample: on a header holding neither field, replaceHeader
with both flags on returns the header unchanged, so the result holds no
physical Date line at all, not exactly one. -/
theorem replaceHeader_unique_counterexample :
    List.countP isDateLine (getRawLines (replaceHeader (strBytes "To: x\r\n") true true
      (strBytes "Date: now\r\n") (strBytes "Message-ID: <new>\r\n"))) ≠ 1 := by decide

/-- C1 (amended): for every header whose raw lines hold exactly one
physical line beginning with Date: and exactly one beginning with
Message-ID:, replaceHeader with both flags on yields a header buffer
with exactly one physical Date line and exactly one physical
Message-ID line, regardless of the original folding. -/
theorem replaceHeader_unique_date_messageId (h dLine mLine : List Nat)
    (hdT : NLTerm dLine) (hmT : NLTerm mLine)
    (hdD : isDateLine dLine = true) (hmM : isMessageIdLine mLine = true)
    (hcd : List.countP isDateLine (getRawLines h) = 1)
    (hcm : List.countP isMessageIdLine (getRawLines h) = 1) :
    List.countP isDateLine (getRawLines (replaceHeader h true true dLine mLine)) = 1 ∧
    List.countP isMessageIdLine (getRawLines (replaceHeader h true true dLine mLine)) = 1 := by
  have hred : replaceHeader h true true dLine mLine =
      concatBytes (replaceMessageIdLine (replaceDateLine (getRawLines h) dLine) mLine) := rfl
  rw [hred]
  have hs0 : ShapeL (getRawLines h) := shapeL_getRawLines h
  have hs1 : ShapeL (replaceDateLine (getRawLines h) dLine) :=
    shapeL_replaceLine _ _ _ hs0 hdT
  have hs2 : ShapeL (replaceMessageIdLine (replaceDateLine (getRawLines h) dLine) mLine) :=
    shapeL_replaceLine _ _ _ hs1 hmT
  constructor
  · rw [countP_getRawLines_concat _ _ hs2 (by decide)]
    simp only [replaceMessageIdLine, replaceDateLine]
    rw [countP_replaceLine_other isMessageIdLine isDateLine mLine _
      folded_not_date msg_not_date (msg_not_date mLine hmM)]
    rw [countP_replaceLine_self isDateLine dLine _ folded_not_date hdD]
    exact hcd
  · rw [countP_getRawLines_concat _ _ hs2 (by decide)]
    simp only [replaceMessageIdLine, replaceDateLine]
    rw [countP_replaceLine_self isMessageIdLine mLine _ folded_not_msg hmM]
    rw [countP_replaceLine_other isDateLine isMessageIdLine dLine _
      folded_not_msg date_not_msg (date_not_msg dLine hdD)]
    exact hcm

/-- Witness for the amended C1 at a concrete folded header. -/
theorem replaceHeader_unique_date_messageId_witness :
    List.countP isDateLine (getRawLines (replaceHeader
      (strBytes "Date: old\r\n\tcont\r\nMessage-ID: <old>\r\nTo: x\r\n") true true
      (strBytes "Date: now\r\n") (strBytes "Message-ID: <new>\r\n"))) = 1 ∧
    List.countP isMessageIdLine (getRawLines (replaceHeader
      (strBytes "Date: old\r\n\tcont\r\nMessage-ID: <old>\r\nTo: x\r\n") true true
      (strBytes "Date: now\r\n") (strBytes "Message-ID: <new>\r\n"))) = 1 :=
  replaceHeader_unique_date_messageId _ _ _
    ⟨strBytes "Date: now\r", by decide⟩
    ⟨strBytes "Message-ID: <new>\r", by decide⟩
    (by decide) (by decide) (by decide) (by decide)

/-! ### Frame lemmas: everything outside the replaced field is kept -/

theorem dropWhile_folded_dropFoldedLine (xs : List (List Nat)) :
    (dropFoldedLine xs).dropWhile isFoldedLine = xs.dropWhile isFoldedLine := by
  induction xs with
  | nil => rfl
  | cons x rest ih =>
    by_cases hx : isFoldedLine x
    · cases hr : findIndexOpt (fun l => ! isFoldedLine l) rest with
      | none => rw [dropFoldedLine_cons_all_folded x rest hx hr]
      | some i =>
        rw [dropFoldedLine_cons_folded x rest hx i hr, ih,
          List.dropWhile_cons, if_pos hx]
    · rw [dropFoldedLine_cons_not_folded x rest (by simpa using hx)]

theorem dropWhile_append_last_not (Q : List Nat → Bool) (u : List (List Nat))
    (v : List Nat) (hv : Q v = false) :
    (u ++ [v]).dropWhile Q = u.dropWhile Q ++ [v] := by
  induction u with
  | nil => simp [List.dropWhile_cons, hv]
  | cons x rest ih =>
    by_cases hx : Q x
    · simp [List.dropWhile_cons, hx, ih]
    · simp [List.dropWhile_cons, hx]

theorem eraseFieldLines_append_nil (P : List Nat → Bool) (xs : List (List Nat))
    (hP : P [] = false) :
    eraseFieldLines P (xs ++ [[]]) = eraseFieldLines P xs ++ [[]] := by
  induction xs with
  | nil => simp [eraseFieldLines, hP]
  | cons l rest ih =>
    by_cases hl : P l
    · simp only [List.cons_append, eraseFieldLines, if_pos hl, List.append_eq]
      exact dropWhile_append_last_not isFoldedLine rest [] (by decide)
    · simp only [List.cons_append, eraseFieldLines, if_neg hl, List.append_eq]
      rw [ih]

theorem eraseFieldLines_replaceLine_self (P : List Nat → Bool) (new : List Nat)
    (xs : List (List Nat)) (hnew : P new = true) :
    eraseFieldLines P (replaceLine xs P new) = eraseFieldLines P xs := by
  induction xs with
  | nil => rfl
  | cons l rest ih =>
    rw [replaceLine_cons]
    by_cases hl : P l
    · rw [if_pos hl]
      simp only [eraseFieldLines, if_pos hnew, if_pos hl]
      exact dropWhile_folded_dropFoldedLine rest
    · rw [if_neg hl]
      simp only [eraseFieldLines, if_neg hl]
      rw [ih]

theorem concat_eraseFieldLines_getRawLines_concat (P : List Nat → Bool)
    (xs : List (List Nat)) (hs : ShapeL xs) (hP : P [] = false) :
    concatBytes (eraseFieldLines P (getRawLines (concatBytes xs))) =
      concatBytes (eraseFieldLines P xs) := by
  rcases getRawLines_concat_of_shape xs hs with h | h
  · rw [h]
  · rw [h, eraseFieldLines_append_nil P xs hP, concatBytes, List.flatten_append]
    simp [concatBytes]

/-! ### C2: the non-selected field is untouched -/

/-- C2: updating only the Date field leaves the Message-ID field (its
line with its folded continuations) byte-identical, and changes only
the Date field: deleting the Date field from the result gives byte for
byte the original header with its Date field deleted, so every line
outside the selected field is untouched; symmetrically for updating
only the Message-ID field. -/
theorem replaceHeader_preserves_other_field (h dLine mLine : List Nat)
    (hdT : NLTerm dLine) (hmT : NLTerm mLine)
    (hdD : isDateLine dLine = true) (hmM : isMessageIdLine mLine = true) :
    (getFieldLines isMessageIdLine (getRawLines (replaceHeader h true false dLine mLine)) =
        getFieldLines isMessageIdLine (getRawLines h) ∧
      concatBytes (eraseFieldLines isDateLine
          (getRawLines (replaceHeader h true false dLine mLine))) =
        concatBytes (eraseFieldLines isDateLine (getRawLines h))) ∧
    (getFieldLines isDateLine (getRawLines (replaceHeader h false true dLine mLine)) =
        getFieldLines isDateLine (getRawLines h) ∧
      concatBytes (eraseFieldLines isMessageIdLine
          (getRawLines (replaceHeader h false true dLine mLine))) =
        concatBytes (eraseFieldLines isMessageIdLine (getRawLines h))) := by
  have hs0 : ShapeL (getRawLines h) := shapeL_getRawLines h
  constructor
  · have hred : replaceHeader h true false dLine mLine =
        concatBytes (replaceDateLine (getRawLines h) dLine) := rfl
    have hs1 : ShapeL (replaceDateLine (getRawLines h) dLine) :=
      shapeL_replaceLine _ isDateLine _ hs0 hdT
    constructor
    · rw [hred, getFieldLines_getRawLines_concat isMessageIdLine _ hs1 (by decide)]
      simp only [replaceDateLine]
      exact getFieldLines_replaceLine isDateLine isMessageIdLine dLine _
        date_not_msg date_not_folded folded_not_msg
        (date_not_msg dLine hdD) (date_not_folded dLine hdD)
    · rw [hred, concat_eraseFieldLines_getRawLines_concat isDateLine _ hs1 (by decide)]
      simp only [replaceDateLine]
      rw [eraseFieldLines_replaceLine_self isDateLine dLine _ hdD]
  · have hred : replaceHeader h false true dLine mLine =
        concatBytes (replaceMessageIdLine (getRawLines h) mLine) := rfl
    have hs1 : ShapeL (replaceMessageIdLine (getRawLines h) mLine) :=
      shapeL_replaceLine _ isMessageIdLine _ hs0 hmT
    constructor
    · rw [hred, getFieldLines_getRawLines_concat isDateLine _ hs1 (by decide)]
      simp only [replaceMessageIdLine]
      exact getFieldLines_replaceLine isMessageIdLine isDateLine mLine _
        msg_not_date msg_not_folded folded_not_date
        (msg_not_date mLine hmM) (msg_not_folded mLine hmM)
    · rw [hred, concat_eraseFieldLines_getRawLines_concat isMessageIdLine _ hs1 (by decide)]
      simp only [replaceMessageIdLine]
      rw [eraseFieldLines_replaceLine_self isMessageIdLine mLine _ hmM]

/-- Witness for C2 at a concrete header with folding on both fields. -/
theorem replaceHeader_preserves_other_field_witness :
    (getFieldLines isMessageIdLine (getRawLines (replaceHeader
        (strBytes "Message-ID: <old>\r\n\tmidcont\r\nDate: old\r\n\tdcont\r\nTo: x\r\n")
        true false (strBytes "Date: now\r\n") (strBytes "Message-ID: <new>\r\n"))) =
        getFieldLines isMessageIdLine (getRawLines
          (strBytes "Message-ID: <old>\r\n\tmidcont\r\nDate: old\r\n\tdcont\r\nTo: x\r\n")) ∧
      concatBytes (eraseFieldLines isDateLine (getRawLines (replaceHeader
        (strBytes "Message-ID: <old>\r\n\tmidcont\r\nDate: old\r\n\tdcont\r\nTo: x\r\n")
        true false (strBytes "Date: now\r\n") (strBytes "Message-ID: <new>\r\n")))) =
        concatBytes (eraseFieldLines isDateLine (getRawLines
          (strBytes "Message-ID: <old>\r\n\tmidcont\r\nDate: old\r\n\tdcont\r\nTo: x\r\n")))) ∧
    (getFieldLines isDateLine (getRawLines (replaceHeader
        (strBytes "Message-ID: <old>\r\n\tmidcont\r\nDate: old\r\n\tdcont\r\nTo: x\r\n")
        false true (strBytes "Date: now\r\n") (strBytes "Message-ID: <new>\r\n"))) =
        getFieldLines isDateLine (getRawLines
          (strBytes "Message-ID: <old>\r\n\tmidcont\r\nDate: old\r\n\tdcont\r\nTo: x\r\n")) ∧
      concatBytes (eraseFieldLines isMessageIdLine (getRawLines (replaceHeader
        (strBytes "Message-ID: <old>\r\n\tmidcont\r\nDate: old\r\n\tdcont\r\nTo: x\r\n")
        false true (strBytes "Date: now\r\n") (strBytes "Message-ID: <new>\r\n")))) =
        concatBytes (eraseFieldLines isMessageIdLine (getRawLines
          (strBytes "Message-ID: <old>\r\n\tmidcont\r\nDate: old\r\n\tdcont\r\nTo: x\r\n")))) :=
  replaceHeader_preserves_other_field _ _ _
    ⟨strBytes "Date: now\r", by decide⟩
    ⟨strBytes "Message-ID: <new>\r", by decide⟩
    (by decide) (by decide)

/-! ### C5: the no-update fast path -/

/-- C5: with both update flags off, replaceMail returns exactly the
buffer it was given, for every buffer; the guard precedes the split, so
this holds also for buffers splitMail rejects. -/
theorem replaceMail_no_update_id (bytes dLine mLine : List Nat) :
    replaceMail bytes false false dLine mLine = some bytes := rfl

/-! ### findEmptyLine: soundness, minimality, completeness -/

theorem crlfAt_succ_cons (x : Nat) (t : List Nat) (j : Nat) :
    crlfAt (x :: t) (j + 1) = crlfAt t j := by
  simp [crlfAt, List.drop_succ_cons]

theorem crlfAt_cons_zero (a b c d : Nat) (rest : List Nat) :
    crlfAt (a :: b :: c :: d :: rest) 0 = true ↔
      (a = CR ∧ b = LF ∧ c = CR ∧ d = LF) := by
  rw [crlfAt, List.isPrefixOf_iff_prefix]
  simp only [EMPTY_LINE, List.drop_zero, List.cons_prefix_cons, List.nil_prefix,
    and_true]
  constructor
  · rintro ⟨h1, h2, h3, h4⟩
    exact ⟨h1.symm, h2.symm, h3.symm, h4.symm⟩
  · rintro ⟨h1, h2, h3, h4⟩
    exact ⟨h1.symm, h2.symm, h3.symm, h4.symm⟩

theorem crlfAt_of_short (bytes : List Nat) (h : bytes.length < 4) (j : Nat) :
    crlfAt bytes j = false := by
  cases hc : crlfAt bytes j with
  | false => rfl
  | true =>
    have hp := (List.isPrefixOf_iff_prefix.mp hc).length_le
    rw [List.length_drop] at hp
    simp only [EMPTY_LINE, List.length_cons, List.length_nil] at hp
    omega

theorem findEmptyLine_sound (bytes : List Nat) :
    ∀ i, findEmptyLine bytes = some i → crlfAt bytes i = true := by
  induction bytes with
  | nil => intro i h; cases h
  | cons a tail ih =>
    intro i h
    cases tail with
    | nil => cases h
    | cons b t2 =>
      cases t2 with
      | nil => cases h
      | cons c t3 =>
        cases t3 with
        | nil => cases h
        | cons d rest =>
          rw [findEmptyLine] at h
          by_cases hcond : a = CR ∧ b = LF ∧ c = CR ∧ d = LF
          · rw [if_pos hcond] at h
            have hi : i = 0 := by
              have := Option.some.inj h
              omega
            subst hi
            exact (crlfAt_cons_zero a b c d rest).mpr hcond
          · rw [if_neg hcond] at h
            cases hr : findEmptyLine (b :: c :: d :: rest) with
            | none => rw [hr] at h; cases h
            | some i2 =>
              rw [hr] at h
              simp only [Option.map_some'] at h
              injection h with h2
              subst h2
              rw [crlfAt_succ_cons]
              exact ih i2 hr

theorem findEmptyLine_min (bytes : List Nat) :
    ∀ i, findEmptyLine bytes = some i → ∀ j, j < i → crlfAt bytes j = false := by
  induction bytes with
  | nil => intro i h; cases h
  | cons a tail ih =>
    intro i h
    cases tail with
    | nil => cases h
    | cons b t2 =>
      cases t2 with
      | nil => cases h
      | cons c t3 =>
        cases t3 with
        | nil => cases h
        | cons d rest =>
          rw [findEmptyLine] at h
          by_cases hcond : a = CR ∧ b = LF ∧ c = CR ∧ d = LF
          · rw [if_pos hcond] at h
            have hi : i = 0 := by
              have := Option.some.inj h
              omega
            subst hi
            intro j hj
            omega
          · rw [if_neg hcond] at h
            cases hr : findEmptyLine (b :: c :: d :: rest) with
            | none => rw [hr] at h; cases h
            | some i2 =>
              rw [hr] at h
              simp only [Option.map_some'] at h
              injection h with h2
              subst h2
              intro j hj
              cases j with
              | zero =>
                cases hc : crlfAt (a :: b :: c :: d :: rest) 0 with
                | false => rfl
                | true => exact absurd ((crlfAt_cons_zero a b c d rest).mp hc) hcond
              | succ j2 =>
                rw [crlfAt_succ_cons]
                exact ih i2 hr j2 (by omega)

/-! ### C3: combineMail inverts a successful splitMail -/

/-- C3: whenever splitMail succeeds, rejoining the returned header and
body with the CRLFCRLF boundary reproduces the original buffer byte
for byte. -/
theorem combineMail_inverts_splitMail (bytes header body : List Nat)
    (h : splitMail bytes = some (header, body)) : combineMail header body = bytes := by
  unfold splitMail at h
  cases hf : findEmptyLine bytes with
  | none => rw [hf] at h; cases h
  | some idx =>
    rw [hf] at h
    simp only [EMPTY_LINE, List.length_cons, List.length_nil, Option.some.injEq,
      Prod.mk.injEq] at h
    obtain ⟨hh, hb⟩ := h
    have hp : EMPTY_LINE <+: bytes.drop idx :=
      List.isPrefixOf_iff_prefix.mp (findEmptyLine_sound bytes idx hf)
    obtain ⟨t, ht⟩ := hp
    have ht4 : bytes.drop (idx + 4) = t := by
      rw [← List.drop_drop, ← ht]
      rw [show (4 : Nat) = EMPTY_LINE.length + 0 from rfl, List.drop_append]
      rfl
    rw [← hh, ← hb, combineMail, concatBytes]
    simp only [List.flatten_cons, List.flatten_nil, List.append_nil]
    have hb4 : (0 + 1 + 1 + 1 + 1 : Nat) = 4 := rfl
    rw [hb4, ht4, ht, List.take_append_drop]

/-- Witness for C3 at a concrete two-part mail. -/
theorem combineMail_inverts_splitMail_witness :
    combineMail (strBytes "A") (strBytes "B") = strBytes "A\r\n\r\nB" :=
  combineMail_inverts_splitMail (strBytes "A\r\n\r\nB") (strBytes "A") (strBytes "B")
    (by decide)

/-! ### C10: the returned header holds no CRLFCRLF -/

/-- C10: the header returned by a successful splitMail contains no
occurrence of the CR,LF,CR,LF boundary at any offset, because the scan
returns the earliest boundary. -/
theorem splitMail_header_no_crlfcrlf (bytes header body : List Nat)
    (h : splitMail bytes = some (header, body)) (j : Nat) : crlfAt header j = false := by
  unfold splitMail at h
  cases hf : findEmptyLine bytes with
  | none => rw [hf] at h; cases h
  | some idx =>
    rw [hf] at h
    simp only [Option.some.injEq, Prod.mk.injEq] at h
    obtain ⟨hh, _⟩ := h
    rw [← hh]
    cases hc : crlfAt (bytes.take idx) j with
    | false => rfl
    | true =>
      exfalso
      have hp : EMPTY_LINE <+: (bytes.take idx).drop j :=
        List.isPrefixOf_iff_prefix.mp hc
      rw [List.drop_take] at hp
      have hlen : 4 ≤ idx - j := by
        have h1 := hp.length_le
        rw [List.length_take] at h1
        simp only [EMPTY_LINE, List.length_cons, List.length_nil] at h1
        have h2 := min_le_left (idx - j) ((bytes.drop j).length)
        omega
      have hpre : EMPTY_LINE <+: bytes.drop j :=
        hp.trans (List.take_prefix _ _)
      have hcj : crlfAt bytes j = true := List.isPrefixOf_iff_prefix.mpr hpre
      rw [findEmptyLine_min bytes idx hf j (by omega)] at hcj
      cases hcj

/-- Witness for C10 at a concrete two-part mail. -/
theorem splitMail_header_no_crlfcrlf_witness : crlfAt (strBytes "A") 0 = false :=
  splitMail_header_no_crlfcrlf (strBytes "A\r\n\r\nB") (strBytes "A") (strBytes "B")
    (by decide) 0

/-! ### C7: a mail without the boundary fails -/

theorem crlfAt_all_of_bounded (bytes : List Nat)
    (h : ∀ j, j < bytes.length → crlfAt bytes j = false) :
    ∀ j, crlfAt bytes j = false := by
  intro j
  by_cases hj : j < bytes.length
  · exact h j hj
  · cases hc : crlfAt bytes j with
    | false => rfl
    | true =>
      have hp := (List.isPrefixOf_iff_prefix.mp hc).length_le
      rw [List.length_drop] at hp
      simp only [EMPTY_LINE, List.length_cons, List.length_nil] at hp
      omega

/-- C7: if the CRLFCRLF pattern occurs nowhere in the buffer then
splitMail reports not found and replaceMail with both flags on fails
instead of returning transformed bytes. -/
theorem no_boundary_replaceMail_fails (bytes dLine mLine : List Nat)
    (hno : ∀ j, crlfAt bytes j = false) :
    splitMail bytes = none ∧ replaceMail bytes true true dLine mLine = none := by
  have hfe : findEmptyLine bytes = none := by
    cases hf : findEmptyLine bytes with
    | none => rfl
    | some i =>
      have hs := findEmptyLine_sound bytes i hf
      rw [hno i] at hs
      cases hs
  constructor
  · simp [splitMail, hfe]
  · simp [replaceMail, isNotUpdate, splitMail, hfe]

/-- Witness for C7 at a concrete boundary-free mail. -/
theorem no_boundary_replaceMail_fails_witness :
    splitMail (strBytes "No boundary\r\nhere") = none ∧
      replaceMail (strBytes "No boundary\r\nhere") true true
        (strBytes "Date: now\r\n") (strBytes "Message-ID: <new>\r\n") = none :=
  no_boundary_replaceMail_fails _ _ _
    (crlfAt_all_of_bounded _ (by decide))

/-! ### C6: dropFoldedLine discards the folded prefix -/

theorem findIndexOpt_isSome (p : α → Bool) (xs : List α)
    (hex : ∃ x, x ∈ xs ∧ p x = true) : ∃ i, findIndexOpt p xs = some i := by
  induction xs with
  | nil => obtain ⟨x, hx, _⟩ := hex; cases hx
  | cons y rest ih =>
    by_cases hy : p y
    · exact ⟨0, by simp [findIndexOpt, hy]⟩
    · have hex2 : ∃ x, x ∈ rest ∧ p x = true := by
        obtain ⟨x, hx, hpx⟩ := hex
        rcases List.mem_cons.mp hx with he | hm
        · subst he; exact absurd hpx hy
        · exact ⟨x, hm, hpx⟩
      obtain ⟨i, hi⟩ := ih hex2
      exact ⟨i + 1, by simp [findIndexOpt, hy, hi]⟩

/-- C6: as long as some line is not folded, dropFoldedLine returns the
suffix starting at the first non-folded line, discarding every folded
line before it. -/
theorem dropFoldedLine_drops_folded (lines : List (List Nat))
    (hex : ∃ l, l ∈ lines ∧ isFoldedLine l = false) :
    dropFoldedLine lines = lines.dropWhile isFoldedLine := by
  induction lines with
  | nil => obtain ⟨l, hl, _⟩ := hex; cases hl
  | cons x rest ih =>
    by_cases hx : isFoldedLine x
    · have hex2 : ∃ l, l ∈ rest ∧ isFoldedLine l = false := by
        obtain ⟨l, hl, hfl⟩ := hex
        rcases List.mem_cons.mp hl with he | hm
        · subst he; rw [hx] at hfl; cases hfl
        · exact ⟨l, hm, hfl⟩
      obtain ⟨i, hi⟩ := findIndexOpt_isSome (fun l => ! isFoldedLine l) rest
        (by obtain ⟨l, hm, hfl⟩ := hex2; exact ⟨l, hm, by simp [hfl]⟩)
      rw [dropFoldedLine_cons_folded x rest hx i hi, ih hex2,
        List.dropWhile_cons, if_pos hx]
    · rw [dropFoldedLine_cons_not_folded x rest (by simpa using hx),
        List.dropWhile_cons, if_neg hx]

/-- Witness for C6 at a concrete list with one folded line. -/
theorem dropFoldedLine_drops_folded_witness :
    dropFoldedLine [strBytes " cont", strBytes "To: x\r\n"] =
      List.dropWhile isFoldedLine [strBytes " cont", strBytes "To: x\r\n"] :=
  dropFoldedLine_drops_folded _ ⟨strBytes "To: x\r\n", by decide, by decide⟩

/-! ### C8: SMTP reply classification -/

/-- C8: isLastReply accepts exactly the lines made of three digits,
one space and at least one further character (on reply lines, which
hold no line terminators), and isPositiveReply holds exactly when the
first character is 2 or 3; the three sample replies classify as the
spec states. -/
theorem smtp_reply_classification :
    (∀ line : List Char, (∀ c ∈ line, isLineTerminator c = false) →
      (isLastReply line = true ↔ ∃ c0 c1 c2 c3 c4 t,
        line = c0 :: c1 :: c2 :: c3 :: c4 :: t ∧ isDigitChar c0 = true ∧
        isDigitChar c1 = true ∧ isDigitChar c2 = true ∧ c3 = ' ')) ∧
    (∀ line : List Char, isPositiveReply line = true ↔
      ∃ c t, line = c :: t ∧ (c = '2' ∨ c = '3')) ∧
    isLastReply ("250-First line".data) = false ∧
    (isLastReply ("250 The last line".data) = true ∧
      isPositiveReply ("250 The last line".data) = true) ∧
    (isLastReply ("550 Failure".data) = true ∧
      isPositiveReply ("550 Failure".data) = false) := by
  refine ⟨?_, ?_, by decide, ⟨by decide, by decide⟩, ⟨by decide, by decide⟩⟩
  · intro line hterm
    match line with
    | [] => simp [isLastReply]
    | [c0] => simp [isLastReply]
    | [c0, c1] => simp [isLastReply]
    | [c0, c1, c2] => simp [isLastReply]
    | [c0, c1, c2, c3] => simp [isLastReply]
    | c0 :: c1 :: c2 :: c3 :: c4 :: t =>
      have hc4 : isLineTerminator c4 = false := hterm c4 (by simp)
      simp only [isLastReply, Bool.and_eq_true, Bool.not_eq_true', decide_eq_true_eq,
        hc4, and_true]
      constructor
      · rintro ⟨⟨⟨h0, h1⟩, h2⟩, h3⟩
        exact ⟨c0, c1, c2, c3, c4, t, rfl, h0, h1, h2, h3⟩
      · rintro ⟨d0, d1, d2, d3, d4, u, heq, h0, h1, h2, h3⟩
        simp only [List.cons.injEq] at heq
        obtain ⟨rfl, rfl, rfl, rfl, rfl, rfl⟩ := heq
        exact ⟨⟨⟨h0, h1⟩, h2⟩, h3⟩
  · intro line
    match line with
    | [] => simp [isPositiveReply]
    | c :: t =>
      simp only [isPositiveReply, Bool.or_eq_true, decide_eq_true_eq]
      constructor
      · intro h
        exact ⟨c, t, rfl, h⟩
      · rintro ⟨d, u, heq, h⟩
        simp only [List.cons.injEq] at heq
        obtain ⟨rfl, rfl⟩ := heq
        exact h

/-- Witness for C8 applying the two quantified components at concrete
reply lines. -/
theorem smtp_reply_classification_witness :
    isLastReply ("250 OK".data) = true ∧ isPositiveReply ("354 go".data) = true :=
  ⟨(smtp_reply_classification.1 ("250 OK".data) (by decide)).mpr
      ⟨'2', '5', '0', ' ', 'O', "K".data, by decide, by decide, by decide, by decide,
        by decide⟩,
    (smtp_reply_classification.2.1 ("354 go".data)).mpr
      ⟨'3', "54 go".data, by decide, by decide⟩⟩

/-! ### C9: the timezone token of the generated Date line -/

/-- C9: inside -840..720 minutes, makeTimeZoneOffset yields a sign
character followed by the two-digit zero-padded hour and minute
magnitudes, the sign being + for non-positive getTimezoneOffset values
(local time at or ahead of UTC) and - for positive ones; outside that
range it throws. -/
theorem makeTimeZoneOffset_spec (min : Int) :
    ((min < -840 ∨ min > 720) → makeTimeZoneOffset min = none) ∧
    (-840 ≤ min → min ≤ 720 →
      makeTimeZoneOffset min =
        some ((if min ≤ 0 then '+' else '-') ::
          [digitChar (min.natAbs / 60 / 10), digitChar (min.natAbs / 60 % 10),
           digitChar (min.natAbs % 60 / 10), digitChar (min.natAbs % 60 % 10)])) := by
  constructor
  · intro h
    simp [makeTimeZoneOffset, h]
  · intro h1 h2
    have hr : ¬ (min < -840 ∨ min > 720) := by omega
    have hdiv : ¬ (min.natAbs / 60 > 99) := by omega
    have hmod : ¬ (min.natAbs % 60 > 99) := by omega
    simp [makeTimeZoneOffset, hr, padZero2, hdiv, hmod]

/-- Witness for C9: Japan standard time (UTC+9, getTimezoneOffset
-540) renders as +0900, and 900 minutes is out of range. -/
theorem makeTimeZoneOffset_spec_witness :
    makeTimeZoneOffset (-540) = some ['+', '0', '9', '0', '0'] ∧
      makeTimeZoneOffset 900 = none := by
  constructor
  · rw [(makeTimeZoneOffset_spec (-540)).2 (by decide) (by decide)]
    decide
  · exact (makeTimeZoneOffset_spec 900).1 (by decide)

end SendEML
